import Mathlib

/-!
# Verification of the Knowsio Aisupport-Backend RAG core

A shallow embedding, in Lean 4, of the retrieval-augmented-generation
orchestration core of the Knowsio backend (`Aisupport-Backend/`):

* the whitespace chunker (`chunk.js`, `chunkText`),
* the vector-literal encoder and the vector-store adapter
  (`db.js`: `toVectorLiteral`, `insertChunk`, `searchOrg`, `searchDomain`),
* the bounded-concurrency executor (`mapLimit` in `index.js` / `db.js`),
* the step watchdog (`withStep`, `stepTimeout` in `db.js`),
* the retrieval merger (`contextSnippets` in the `/ask` handlers),
* the generation router (`llm.js`: `PROVIDERS`, `generateLLM`) and the
  `/ask` provider guard.

JavaScript numbers are idealized as exact rationals (`ℚ`); every number
appearing in the program's relevant data paths is a decimal literal, for
which the idealization agrees with IEEE-double surface behaviour.
Asynchronous completion order is made explicit: an execution of
`mapLimit` is driven by a *schedule*, the list of task indices in the
order in which their promises settle; a `Promise.race` is modelled by
comparing the settle instants of its two arms.

Store operations (`INSERT ... ON CONFLICT`, `SELECT ... ORDER BY ...
LIMIT`) are modelled over an explicit list of rows, following the schema
declared by `ensureSchema` in `db.js` (in particular `kb_org.org_id TEXT
NOT NULL`) and PostgreSQL's documented `LIMIT` behaviour (a negative
`LIMIT` is rejected with an error).
-/

namespace Knowsio

/-! ## JavaScript string primitives -/

/-- The character class of the regex `\s` (whitespace), as used by
`text.split(/\s+/)` and `String.prototype.trim` in `chunk.js`. -/
def isWs (c : Char) : Bool := c.isWhitespace

/-- Worker for `splitWs`.  Walks the characters once; `skipping = true`
means we are inside a (maximal) whitespace run that has already emitted
the token preceding it; `acc` holds the current token, reversed. -/
def splitWsAux : List Char → Bool → List Char → List (List Char)
  | [], true, _ => [[]]
  | [], false, acc => [acc.reverse]
  | c :: cs, true, _ =>
    if isWs c then splitWsAux cs true []
    else splitWsAux cs false [c]
  | c :: cs, false, acc =>
    if isWs c then acc.reverse :: splitWsAux cs true []
    else splitWsAux cs false (c :: acc)

/-- JS `str.split(/\s+/)` over the characters of `str`: tokens between
maximal whitespace runs, with an empty token at either end when the
string starts or ends with whitespace, and `[""]` for the empty string. -/
def splitWs (cs : List Char) : List (List Char) := splitWsAux cs false []

/-- JS `Array.prototype.join(' ')` on a list of word character-lists
(`words.slice(i, i + maxTokens).join(' ')` in `chunk.js`). -/
def joinSp : List (List Char) → List Char
  | [] => []
  | [w] => w
  | w :: ws => w ++ ' ' :: joinSp ws

/-- JS `String.prototype.trim`: strip leading and trailing whitespace. -/
def jsTrim (cs : List Char) : List Char :=
  ((cs.dropWhile isWs).reverse.dropWhile isWs).reverse

/-! ## Chunker (`chunk.js`) -/

/-- The loop body of `chunkText`: starting at word index `i`, take a
window of `maxTokens` words, keep it when its join has visible content
(`if (slice.trim()) chunks.push(slice)`), and advance by
`Math.max(1, maxTokens - overlapTokens)`.  The `fuel` argument only
makes the recursion structural; `fuel = words.length` always suffices
because `i` strictly increases at each step. -/
def chunkAux (words : List (List Char)) (maxTokens overlapTokens : ℕ) :
    ℕ → ℕ → List (List Char)
  | 0, _ => []
  | fuel + 1, i =>
    if i < words.length then
      if jsTrim (joinSp ((words.drop i).take maxTokens)) = [] then
        chunkAux words maxTokens overlapTokens fuel
          (i + max 1 (maxTokens - overlapTokens))
      else
        joinSp ((words.drop i).take maxTokens) ::
          chunkAux words maxTokens overlapTokens fuel
            (i + max 1 (maxTokens - overlapTokens))
    else []

/-- `chunkText(text, { maxTokens, overlapTokens })` from `chunk.js`:
`const words = (text || '').split(/\s+/)`, then the window loop.  The
source's defaults are `maxTokens = 700`, `overlapTokens = 120`. -/
def chunkText (text : String) (maxTokens overlapTokens : ℕ) : List String :=
  let words := splitWs text.data
  (chunkAux words maxTokens overlapTokens words.length 0).map (fun w => String.mk w)

/-! ## JavaScript values and numbers (for `toVectorLiteral`, `db.js`) -/

/-- A JS number: a finite value (idealized as an exact rational), `NaN`,
or one of the two infinities. -/
inductive JsNum where
  | val (q : ℚ)
  | nan
  | inf
  | negInf
deriving DecidableEq

/-- A JS value as far as `toVectorLiteral`'s element coercion observes
it: a number, a string, or anything else (`null`, `undefined`, booleans,
objects — every non-string value `v` with `Number.isFinite(v) = false`). -/
inductive JsVal where
  | num (x : JsNum)
  | str (s : String)
  | other
deriving DecidableEq

/-- An argument to `toVectorLiteral` / `insertChunk` / the searches:
either a JS array of values or any non-array value
(`Array.isArray(vec) = false`). -/
inductive JsArg where
  | arr (vs : List JsVal)
  | nonArray
deriving DecidableEq

/-- The numeric value of a digit run (most significant first). -/
def digitsVal (ds : List Char) : ℕ :=
  ds.foldl (fun n c => 10 * n + (c.toNat - 48)) 0

/-- The optional exponent suffix consumed by `parseFloat` after `e`/`E`:
an optional sign followed by digits; with no digits the exponent part is
not consumed and contributes `0`. -/
def expVal (cs : List Char) : ℤ :=
  let signed : Bool × List Char :=
    match cs with
    | '-' :: t => (true, t)
    | '+' :: t => (false, t)
    | t => (false, t)
  let ds := signed.2.takeWhile Char.isDigit
  if ds = [] then 0
  else if signed.1 then -(digitsVal ds : ℤ) else (digitsVal ds : ℤ)

/-- The rational `± m / 10^s * 10^e` built from integer arithmetic only,
so that it evaluates inside the kernel: `m` is the mantissa read as an
integer, `s` the number of fractional digits, `e` the exponent. -/
def decValue (neg : Bool) (m s : ℕ) (e : ℤ) : ℚ :=
  let num : ℤ := (if neg then -(m : ℤ) else (m : ℤ)) * 10 ^ (e - (s : ℤ)).toNat
  mkRat num (10 ^ ((s : ℤ) - e).toNat)

/-- JS `parseFloat`: skip leading whitespace, optional sign, either the
literal `Infinity` or a decimal significand (`digits`, `.digits`, or
`digits.digits`) with an optional exponent; `NaN` when no digit (and no
`Infinity`) can be consumed.  Values are exact rationals. -/
def parseFloat (s : String) : JsNum :=
  let cs := s.data.dropWhile isWs
  let signed : Bool × List Char :=
    match cs with
    | '-' :: t => (true, t)
    | '+' :: t => (false, t)
    | t => (false, t)
  let body := signed.2
  if body.take 8 = ['I', 'n', 'f', 'i', 'n', 'i', 't', 'y'] then
    if signed.1 then JsNum.negInf else JsNum.inf
  else
    let ip := body.takeWhile Char.isDigit
    let rest1 := body.dropWhile Char.isDigit
    let fp : List Char × List Char :=
      match rest1 with
      | '.' :: t => (t.takeWhile Char.isDigit, t.dropWhile Char.isDigit)
      | t => ([], t)
    if ip = [] ∧ fp.1 = [] then JsNum.nan
    else
      let e : ℤ :=
        match fp.2 with
        | 'e' :: t => expVal t
        | 'E' :: t => expVal t
        | _ => 0
      JsNum.val (decValue signed.1 (digitsVal ip * 10 ^ fp.1.length + digitsVal fp.1)
        fp.1.length e)

/-- `Number.isFinite(n) ? n : 0` on a JS number. -/
def finiteOr0 : JsNum → ℚ
  | .val q => q
  | _ => 0

/-- The element coercion of `toVectorLiteral` (`db.js` lines 64–67):
`const n = typeof v === 'string' ? parseFloat(v) : v;
 return Number.isFinite(n) ? n : 0;`. -/
def coerceNum : JsVal → ℚ
  | .str s => finiteOr0 (parseFloat s)
  | .num x => finiteOr0 x
  | .other => 0

/-- Fractional digits of `r / d` in base 10 (long division); stops at
remainder `0`.  The fuel bounds the output for denominators that do not
divide a power of ten — such denominators cannot arise from JS doubles,
which are dyadic rationals with terminating decimal expansions. -/
def fracDigits : ℕ → ℕ → ℕ → List Char
  | 0, _, _ => []
  | fuel + 1, r, d =>
    if r = 0 then []
    else Nat.digitChar (r * 10 / d) :: fracDigits fuel (r * 10 % d) d

/-- Decimal rendering of a rational, matching JS `String(n)` on
terminating decimals: optional minus sign, integer part, and a
fractional part exactly when nonzero. -/
def decimalString (q : ℚ) : String :=
  let sgn := if q < 0 then "-" else ""
  let n := q.num.natAbs
  let d := q.den
  sgn ++ toString (n / d) ++
    (if n % d = 0 then "" else "." ++ String.mk (fracDigits 1200 (n % d) d))

/-- `toVectorLiteral(vec)` from `db.js`: a hard error on non-array
input, otherwise the bracketed comma-joined decimal rendering of the
coerced elements (`` `[${nums.join(',')}]` ``). -/
def toVectorLiteral : JsArg → Except String String
  | .nonArray => .error "embedding must be an array"
  | .arr vs =>
    .ok ("[" ++ String.intercalate "," (vs.map (fun v => decimalString (coerceNum v))) ++ "]")

/-! ## Stable sorting (JS `Array.prototype.sort`)

Since ES2019 `Array.prototype.sort(cmp)` is specified to be stable; for
a comparator that induces a total preorder, its result is the unique
stable, sorted permutation of the input, which the insertion sort below
computes: each element is inserted after every already-placed element
that compares less-or-equal to it. -/

/-- Insert `x` into `l` after every element `y` with `le y x`. -/
def insertStable {α : Type} (le : α → α → Bool) (x : α) : List α → List α
  | [] => [x]
  | y :: ys => if le y x then y :: insertStable le x ys else x :: y :: ys

/-- Stable sort under the total preorder decided by `le`: the model of
JS `array.sort(cmp)` where `le a b ↔ cmp(a, b) ≤ 0`. -/
def sortStable {α : Type} (le : α → α → Bool) (l : List α) : List α :=
  l.foldl (fun acc x => insertStable le x acc) []

/-! ## Retrieval merger (`contextSnippets` in the `/ask` handlers) -/

/-- A tier search result as the merger sees it: `(id, text, metadata,
distance)`; `distance` is optional because the merge treats a missing
distance as `0` (`a.distance ?? 0`). -/
structure Snippet where
  id : String
  text : String
  distance : Option ℚ
deriving DecidableEq

/-- `a.distance ?? 0`. -/
def distOr0 (s : Snippet) : ℚ := s.distance.getD 0

/-- The JS comparator `(a, b) => (a.distance ?? 0) - (b.distance ?? 0)`
read as a less-or-equal test: `cmp(a, b) ≤ 0`. -/
def jsDistLe (a b : Snippet) : Bool := decide (distOr0 a - distOr0 b ≤ 0)

/-- `contextSnippets` from the `/ask` handlers (`index.js` 183–185,
`db.js` 367–369): `[...orgSnips, ...domainSnips].sort(cmp).slice(0,
max_ctx)`. -/
def contextSnippets (orgSnips domainSnips : List Snippet) (maxCtx : ℕ) : List Snippet :=
  (sortStable jsDistLe (orgSnips ++ domainSnips)).take maxCtx

/-- The Retrieval Merger as the spec words it (§4.6): concatenate the
two tiers, stably sort by ascending distance treating a missing
distance as `0`, truncate to the first `maxContext` entries. -/
def specMergeContext (orgSnips domainSnips : List Snippet) (maxContext : ℕ) : List Snippet :=
  (sortStable (fun a b => decide (distOr0 a ≤ distOr0 b)) (orgSnips ++ domainSnips)).take
    maxContext

/-! ## Bounded-concurrency executor (`mapLimit`)

`mapLimit(items, limit, fn)` (identical in `index.js` 38–55 and `db.js`
208–225) keeps a cursor `i`, a counter `inFlight` and an output array
`out`; `next()` resolves with `out` once `i >= items.length &&
inFlight === 0`, otherwise starts workers while `inFlight < limit && i <
items.length`; each settled worker stores its value at its original
index (or rejects the whole promise) and calls `next()` again.

The model makes the asynchrony explicit: the worker for index `idx`
deterministically settles with `f idx`, and a *schedule* lists, in
order, the index of each in-flight worker as it settles.  The state
additionally records the highest number of simultaneously in-flight
workers ever observed (`peak`). -/

/-- The executor state between event-loop turns. -/
structure MLState (V : Type) where
  nextIdx : ℕ
  inFlight : List ℕ
  out : List (Option V)
  peak : ℕ

/-- The `while (inFlight < limit && i < items.length)` start loop, made
structural on a fuel; `fuel = n - nextIdx` always suffices since each
started worker advances `nextIdx`. -/
def fillAux (n : ℕ) (limit : ℤ) {V : Type} : ℕ → MLState V → MLState V
  | 0, s => s
  | fuel + 1, s =>
    if (s.inFlight.length : ℤ) < limit ∧ s.nextIdx < n then
      fillAux n limit fuel
        { nextIdx := s.nextIdx + 1
          inFlight := s.inFlight ++ [s.nextIdx]
          out := s.out
          peak := max s.peak (s.inFlight.length + 1) }
    else s

/-- Start as many workers as the limit allows. -/
def fill (n : ℕ) (limit : ℤ) {V : Type} (s : MLState V) : MLState V :=
  fillAux n limit (n - s.nextIdx) s

/-- How a driven `mapLimit` run ends: resolved, rejected, or not settled
(the schedule ended, or named a worker that is not in flight, before the
promise settled). -/
inductive MLOutcome (E V : Type) where
  | ok (out : List V)
  | err (e : E)
  | pending
deriving DecidableEq

/-- The value of a successful worker result (`default` is never reached
on the paths the theorems traverse). -/
def okVal {E V : Type} [Inhabited V] : Except E V → V
  | .ok v => v
  | .error _ => default

/-- Drive the executor by a schedule: settle the scheduled in-flight
worker, record its result (or reject), refill, repeat; resolve once the
cursor is exhausted and nothing is in flight.  The second component is
the peak number of simultaneously in-flight workers. -/
def runAux {E V : Type} [Inhabited V] (f : ℕ → Except E V) (n : ℕ) (limit : ℤ) :
    List ℕ → MLState V → MLOutcome E V × ℕ
  | [], s =>
    if n ≤ s.nextIdx ∧ s.inFlight = [] then
      (.ok (s.out.map (fun o => o.getD default)), s.peak)
    else (.pending, s.peak)
  | j :: rest, s =>
    if n ≤ s.nextIdx ∧ s.inFlight = [] then
      (.ok (s.out.map (fun o => o.getD default)), s.peak)
    else if j ∈ s.inFlight then
      match f j with
      | .error e => (.err e, s.peak)
      | .ok v =>
        runAux f n limit rest
          (fill n limit
            { s with inFlight := s.inFlight.erase j, out := s.out.set j (some v) })
    else (.pending, s.peak)

/-- A full `mapLimit(items, limit, fn)` run: `out = new Array(n)`,
`i = 0`, `inFlight = 0`, one initial `next()`, then the schedule. -/
def mapLimitRun {E V : Type} [Inhabited V] (f : ℕ → Except E V) (n : ℕ) (limit : ℤ)
    (sched : List ℕ) : MLOutcome E V × ℕ :=
  runAux f n limit sched (fill n limit ⟨0, [], List.replicate n none, 0⟩)

/-- `mapLimit` hangs: under every completion schedule the promise
neither resolves nor rejects. -/
def neverSettles {E V : Type} [Inhabited V] (f : ℕ → Except E V) (n : ℕ) (limit : ℤ) :
    Prop :=
  ∀ sched : List ℕ, (mapLimitRun f n limit sched).1 = MLOutcome.pending

/-! ## Step watchdog (`withStep`, `stepTimeout` in `db.js`) -/

/-- `const STEP_MARGIN = 5000` (`db.js` line 164). -/
def STEP_MARGIN : ℕ := 5000

/-- `stepTimeout(ms) { return ms + STEP_MARGIN; }` (`db.js` 165–167). -/
def stepTimeout (ms : ℕ) : ℕ := ms + STEP_MARGIN

/-- The message of the watchdog's rejection:
`` `Step "${label}" timed out after ${timeoutMs}ms` `` (`db.js` 180). -/
def stepTimeoutMessage (label : String) (timeoutMs : ℕ) : String :=
  "Step \"" ++ label ++ "\" timed out after " ++ toString timeoutMs ++ "ms"

/-- A settled promise: at which instant (ms since the step started) and
with which outcome. -/
structure StepOutcome (V : Type) where
  settleMs : ℕ
  result : Except String V

/-- `withStep(id, label, fn, timeoutMs)` (`db.js` 176–190):
`Promise.race([Promise.resolve().then(fn), timeout])` where `timeout`
rejects after `timeoutMs` ms.  The wrapped `fn` settles at `fnMs` with
`fnResult`; whichever arm settles first decides the race (the timer wins
ties — if `fn` has not settled strictly before the deadline, its later
outcome is never surfaced). -/
def withStep {V : Type} (label : String) (timeoutMs fnMs : ℕ)
    (fnResult : Except String V) : StepOutcome V :=
  if fnMs < timeoutMs then ⟨fnMs, fnResult⟩
  else ⟨timeoutMs, .error (stepTimeoutMessage label timeoutMs)⟩

/-! ## Generation router (`llm.js`) and the `/ask` provider guard -/

/-- ASCII uppercasing, JS `String.prototype.toUpperCase` on the
provider keys in play. -/
def jsToUpper (s : String) : String := String.mk (s.data.map Char.toUpper)

/-- `PROVIDERS` from `llm.js` as `(key, defaultModel)` pairs.  `OLLAMA`'s
default model is `process.env.GEN_MODEL || 'llama3.2:3b-instruct-q4_0'`;
the literal fallback stands in for the environment value, which no claim
observes. -/
def PROVIDERS : List (String × String) :=
  [("OLLAMA", "llama3.2:3b-instruct-q4_0"),
   ("GROQ", "llama-3.1-8b-instant"),
   ("OPENAI", "gpt-4o-mini"),
   ("MISTRAL", "open-mixtral-8x7b")]

/-- `generateLLM({ provider, ... })` (`llm.js` 34–91), with the network
abstracted to a `transport` function from endpoint to response body and
a count of transport invocations: each known provider issues exactly one
`axios.post` to its endpoint; anything else falls through every branch
to `throw new Error('Unsupported provider: ...')` without touching the
network. -/
def generateLLM (provider : String) (transport : String → String) :
    Except String String × ℕ :=
  let p := jsToUpper provider
  if p = "OLLAMA" then (.ok (transport "OLLAMA_URL/api/generate"), 1)
  else if p = "GROQ" then
    (.ok (transport "https://api.groq.com/openai/v1/chat/completions"), 1)
  else if p = "OPENAI" then
    (.ok (transport "https://api.openai.com/v1/chat/completions"), 1)
  else if p = "MISTRAL" then
    (.ok (transport "https://api.mistral.ai/v1/chat/completions"), 1)
  else (.error ("Unsupported provider: " ++ p), 0)

/-- The `/ask` boundary guard (`db.js` 343–347): uppercase the requested
provider (falling back to the environment, then `'OLLAMA'`), and answer
`400 Unsupported provider` before any other work when it is not a key of
`PROVIDERS`.  Returns the resolved provider key on success. -/
def askProviderGuard (reqProvider envProvider : Option String) :
    Except (ℕ × String) String :=
  let provider := jsToUpper (reqProvider.getD (envProvider.getD "OLLAMA"))
  if (PROVIDERS.lookup provider).isSome then .ok provider
  else .error (400, "Unsupported provider: " ++ provider)

/-! ## Vector store adapter (`insertChunk`, `searchOrg`, `searchDomain`)

The backing store is modelled as an explicit list of rows per table,
with the schema of `ensureSchema` (`db.js` 25–38): `kb_org(id TEXT
PRIMARY KEY, org_id TEXT NOT NULL, text, metadata, embedding)` and
`kb_domain(id TEXT PRIMARY KEY, text, metadata, embedding)`.  The `<#>`
distance operator is an uninterpreted parameter on stored literals. -/

/-- The metadata fields the store adapter reads.  `org_id = none` models
a metadata object without the property (JS `undefined`, sent to the
store as SQL `NULL`). -/
structure Meta where
  org_id : Option String
deriving DecidableEq

/-- A row of `kb_org`. -/
structure OrgRow where
  id : String
  org_id : String
  text : String
  metadata : Meta
  embedding : String
deriving DecidableEq

/-- A row of `kb_domain`. -/
structure DomRow where
  id : String
  text : String
  metadata : Meta
  embedding : String
deriving DecidableEq

/-- A search hit: `SELECT id, text, metadata, (embedding <#> $q) AS
distance`. -/
structure SearchHit where
  id : String
  text : String
  metadata : Meta
  distance : ℚ
deriving DecidableEq

/-- PostgreSQL `LIMIT ${limit}` on an ordered result: `LIMIT 0` yields
no rows; a negative limit is rejected by the database
(`ERROR: LIMIT must not be negative`), which surfaces to the caller as a
query error. -/
def pgLimit {α : Type} (limit : ℤ) (rows : List α) : Except String (List α) :=
  if limit < 0 then .error "LIMIT must not be negative"
  else .ok (rows.take limit.toNat)

/-- `insertChunk({ table: 'kb_org', ... })` (`db.js` 71–87): encode the
embedding (hard error on a non-array), send `metadata.org_id` as the
`org_id` column (SQL `NULL` when absent, rejected by the column's `NOT
NULL` constraint), and upsert on the `id` primary key, replacing `text`,
`metadata`, `embedding` and `org_id` on conflict. -/
def insertChunkOrg (tbl : List OrgRow) (id text : String) (metadata : Meta)
    (embedding : JsArg) : Except String (List OrgRow) := do
  let emb ← toVectorLiteral embedding
  match metadata.org_id with
  | none => .error "null value in column \"org_id\" violates not-null constraint"
  | some oid =>
    if tbl.any (fun r => r.id = id) then
      .ok (tbl.map (fun r =>
        if r.id = id then
          { id := r.id, org_id := oid, text := text, metadata := metadata,
            embedding := emb }
        else r))
    else .ok (tbl ++ [⟨id, oid, text, metadata, emb⟩])

/-- `searchOrg({ orgId, queryEmbedding, limit })` (`db.js` 89–100):
encode the query embedding, keep the rows with `org_id = $1`, order by
ascending `embedding <#> $2::vector` (stably, by the store's underlying
order), and apply `LIMIT ${limit}`. -/
def searchOrg (dist : String → String → ℚ) (tbl : List OrgRow) (orgId : String)
    (queryEmbedding : JsArg) (limit : ℤ) : Except String (List SearchHit) := do
  let emb ← toVectorLiteral queryEmbedding
  let inTier := tbl.filter (fun r => r.org_id = orgId)
  let ordered := sortStable
    (fun a b => decide (dist a.embedding emb ≤ dist b.embedding emb)) inTier
  let limited ← pgLimit limit ordered
  .ok (limited.map (fun r => ⟨r.id, r.text, r.metadata, dist r.embedding emb⟩))

/-- `searchDomain({ queryEmbedding, limit })` (`db.js` 102–112): same as
`searchOrg` without the organization filter. -/
def searchDomain (dist : String → String → ℚ) (tbl : List DomRow)
    (queryEmbedding : JsArg) (limit : ℤ) : Except String (List SearchHit) := do
  let emb ← toVectorLiteral queryEmbedding
  let ordered := sortStable
    (fun a b => decide (dist a.embedding emb ≤ dist b.embedding emb)) tbl
  let limited ← pgLimit limit ordered
  .ok (limited.map (fun r => ⟨r.id, r.text, r.metadata, dist r.embedding emb⟩))

/-- The org-tier scoping invariant stated by the spec (§3): every
persisted org-tier record carries a non-empty `org_id`. -/
def orgRecordsWellScoped (tbl : List OrgRow) : Prop :=
  ∀ r ∈ tbl, r.org_id ≠ ""

/-- The element coercion as the spec words it (§4.3): numeric strings
parsed, non-finite or non-numeric values replaced by `0.0`. -/
def specCoerce (v : JsVal) : ℚ :=
  match v with
  | .num (.val q) => q
  | .num _ => 0
  | .str s =>
    match parseFloat s with
    | .val q => q
    | _ => 0
  | .other => 0

/-- The chunk count asserted by the claim:
`ceil((|words(T)| - overlapUnits) / (maxUnits - overlapUnits))`,
as a natural-number ceiling division. -/
def claimedChunkCount (text : String) (maxTokens overlapTokens : ℕ) : ℕ :=
  (((splitWs text.data).length - overlapTokens) + (maxTokens - overlapTokens) - 1) /
    (maxTokens - overlapTokens)

/-- The executor invariant: the output array has length `n`, the cursor
is in range, in-flight indices are below the cursor, and every index
below the cursor that is no longer in flight has completed successfully
with its result stored at its own position. -/
def MLInv {E V : Type} (f : ℕ → Except E V) (n : ℕ) (s : MLState V) : Prop :=
  s.out.length = n ∧ s.nextIdx ≤ n ∧
  (∀ j ∈ s.inFlight, j < s.nextIdx) ∧
  (∀ j, j < s.nextIdx → j ∉ s.inFlight →
    ∃ v, f j = Except.ok v ∧ s.out[j]? = some (some v))

/-- Concurrency-ceiling invariant: never more than `limit` workers in
flight, and the observed peak never exceeded `limit` either. -/
def MLPeakInv (limit : ℤ) {V : Type} (s : MLState V) : Prop :=
  (s.inFlight.length : ℤ) ≤ limit ∧ (s.peak : ℤ) ≤ limit

/-- A concrete all-succeeding worker used to witness the executor
theorems on a small input. -/
def demoWorkerC2 : ℕ → Except String ℕ := fun i => Except.ok (10 * i)

/-- A concrete worker for the concurrency-ceiling witness. -/
def demoWorkerC10 : ℕ → Except String ℕ := fun i => Except.ok (i + 1)

/-- A concrete worker for the `limit < 1` counterexample and witness. -/
def demoWorkerC8 : ℕ → Except String ℕ := fun _ => Except.ok 0

/-! # Theorems -/

/-! ## Stable sort: permutation and sortedness -/

theorem insertStable_perm {α : Type} (le : α → α → Bool) (x : α) (l : List α) :
    List.Perm (insertStable le x l) (x :: l) := by
  induction l with
  | nil => exact List.Perm.refl _
  | cons y ys ih =>
    simp only [insertStable]
    split
    · exact (ih.cons y).trans (List.Perm.swap x y ys)
    · exact List.Perm.refl _

theorem foldl_insertStable_perm {α : Type} (le : α → α → Bool) :
    ∀ (l acc : List α),
      List.Perm (l.foldl (fun a x => insertStable le x a) acc) (acc ++ l) := by
  intro l
  induction l with
  | nil => intro acc; simp
  | cons x xs ih =>
    intro acc
    refine (ih (insertStable le x acc)).trans ?_
    refine ((insertStable_perm le x acc).append_right xs).trans ?_
    simpa using (@List.perm_middle _ x acc xs).symm

theorem sortStable_perm {α : Type} (le : α → α → Bool) (l : List α) :
    List.Perm (sortStable le l) l := by
  simpa [sortStable] using foldl_insertStable_perm le l []

theorem insertStable_pairwise {α : Type} (le : α → α → Bool)
    (htot : ∀ a b, le a b || le b a)
    (htrans : ∀ a b c, le a b = true → le b c = true → le a c = true)
    (x : α) :
    ∀ l : List α, l.Pairwise (fun a b => le a b = true) →
      (insertStable le x l).Pairwise (fun a b => le a b = true) := by
  intro l
  induction l with
  | nil => intro _; simp [insertStable]
  | cons y ys ih =>
    intro h
    have hy : ∀ z ∈ ys, le y z = true := (List.pairwise_cons.1 h).1
    have hys : ys.Pairwise (fun a b => le a b = true) := (List.pairwise_cons.1 h).2
    simp only [insertStable]
    split
    · next hle =>
      refine List.pairwise_cons.2 ⟨?_, ih hys⟩
      intro z hz
      rcases List.mem_cons.1 (((insertStable_perm le x ys).mem_iff).1 hz) with hz | hz
      · exact hz ▸ hle
      · exact hy z hz
    · next hle =>
      have hxy : le x y = true := by
        have := htot y x
        cases hyx : le y x with
        | true => exact absurd hyx hle
        | false => simpa [hyx] using this
      refine List.pairwise_cons.2 ⟨?_, h⟩
      intro z hz
      rcases List.mem_cons.1 hz with hz | hz
      · exact hz ▸ hxy
      · exact htrans x y z hxy (hy z hz)

theorem sortStable_pairwise {α : Type} (le : α → α → Bool)
    (htot : ∀ a b, le a b || le b a)
    (htrans : ∀ a b c, le a b = true → le b c = true → le a c = true)
    (l : List α) :
    (sortStable le l).Pairwise (fun a b => le a b = true) := by
  suffices h : ∀ (l acc : List α), acc.Pairwise (fun a b => le a b = true) →
      (l.foldl (fun a x => insertStable le x a) acc).Pairwise (fun a b => le a b = true) by
    exact h l [] (List.Pairwise.nil)
  intro l
  induction l with
  | nil => intro acc hacc; simpa using hacc
  | cons x xs ih =>
    intro acc hacc
    exact ih (insertStable le x acc) (insertStable_pairwise le htot htrans x acc hacc)

/-- The JS comparator of the merger, `(a.distance ?? 0) - (b.distance ??
0) ≤ 0`, decides exactly ascending order of `distance ?? 0`. -/
theorem jsDistLe_eq :
    jsDistLe = fun a b => decide (distOr0 a ≤ distOr0 b) := by
  funext a b
  simp [jsDistLe, decide_eq_decide, sub_nonpos]

/-- C1: for every pair of result sequences and every `maxContext`, the
merged context is the concatenation of the org-tier sequence followed by
the domain-tier sequence, stably sorted by ascending distance with a
missing distance treated as `0`, truncated to its first `maxContext`
entries (the sorted list is a permutation of the concatenation and is
pairwise ordered by `distance ?? 0`); in particular, org-tier distances
`[0.9, 0.1]` and domain-tier distances `[0.5, 0.3]` with `maxContext =
3` merge to the distance order `[0.1, 0.3, 0.5]` and exclude the `0.9`
entry. -/
theorem contextSnippets_spec :
    (∀ (orgSnips domainSnips : List Snippet) (maxCtx : ℕ),
      contextSnippets orgSnips domainSnips maxCtx =
        specMergeContext orgSnips domainSnips maxCtx ∧
      List.Perm (sortStable jsDistLe (orgSnips ++ domainSnips)) (orgSnips ++ domainSnips) ∧
      (contextSnippets orgSnips domainSnips maxCtx).Pairwise
        (fun a b => distOr0 a ≤ distOr0 b)) ∧
    contextSnippets
        [⟨"o1", "org 1", some (mkRat 9 10)⟩, ⟨"o2", "org 2", some (mkRat 1 10)⟩]
        [⟨"d1", "dom 1", some (mkRat 5 10)⟩, ⟨"d2", "dom 2", some (mkRat 3 10)⟩] 3 =
      [⟨"o2", "org 2", some (mkRat 1 10)⟩, ⟨"d2", "dom 2", some (mkRat 3 10)⟩,
       ⟨"d1", "dom 1", some (mkRat 5 10)⟩] := by
  have hmain : ∀ (orgSnips domainSnips : List Snippet) (maxCtx : ℕ),
      contextSnippets orgSnips domainSnips maxCtx =
        specMergeContext orgSnips domainSnips maxCtx := by
    intro org dom k
    simp only [contextSnippets, specMergeContext, jsDistLe_eq]
  refine ⟨fun org dom k => ⟨hmain org dom k, ?_, ?_⟩, ?_⟩
  · exact sortStable_perm _ _
  · have hp := sortStable_pairwise (fun a b => decide (distOr0 a ≤ distOr0 b))
      (fun a b => by simpa using le_total (distOr0 a) (distOr0 b))
      (fun a b c hab hbc => by
        simp only [decide_eq_true_eq] at hab hbc ⊢
        exact le_trans hab hbc) (org ++ dom)
    have hp2 : (sortStable (fun a b => decide (distOr0 a ≤ distOr0 b)) (org ++ dom)).Pairwise
        (fun a b => distOr0 a ≤ distOr0 b) :=
      hp.imp (fun h => by simpa using h)
    have := hp2.sublist (List.take_sublist k _)
    rw [hmain org dom k] at *
    simpa [specMergeContext] using this
  · rw [hmain]
    rfl

/-! ## Vector literal encoding (C3) -/

/-- C3: for every array input, `toVectorLiteral` returns the bracketed,
comma-separated decimal string of the elements coerced as the spec
states (numeric strings parsed, non-finite or non-numeric elements
replaced by `0`); `["1", "bad", 2.5]` encodes to `"[1,0,2.5]"`; every
non-array input is a hard error. -/
theorem toVectorLiteral_spec :
    (∀ v, coerceNum v = specCoerce v) ∧
    (∀ vs : List JsVal,
      toVectorLiteral (JsArg.arr vs) =
        .ok ("[" ++
          String.intercalate "," (vs.map (fun v => decimalString (specCoerce v))) ++ "]")) ∧
    toVectorLiteral (JsArg.arr [.str "1", .str "bad", .num (.val (mkRat 5 2))]) =
      .ok "[1,0,2.5]" ∧
    toVectorLiteral JsArg.nonArray = .error "embedding must be an array" := by
  have hco : ∀ v, coerceNum v = specCoerce v := by
    intro v
    cases v with
    | num x => cases x <;> rfl
    | str s =>
      cases hp : parseFloat s <;> simp [coerceNum, specCoerce, finiteOr0, hp]
    | other => rfl
  refine ⟨hco, ?_, rfl, rfl⟩
  intro vs
  have hfun : (fun v => decimalString (coerceNum v)) = fun v => decimalString (specCoerce v) :=
    funext fun v => by rw [hco]
  simp only [toVectorLiteral, hfun]

/-! ## Step watchdog (C5) -/

/-- C5: when the wrapped `fn` does not settle strictly before the
watchdog deadline `stepTimeout deadline = deadline + STEP_MARGIN`, the
step fails with the error naming the step's label and the timeout value,
whatever outcome `fn` later produces, and it settles exactly at
`deadline + STEP_MARGIN` — within the stage deadline plus the fixed
watchdog margin, not later. -/
theorem withStep_timeout {V : Type} (label : String) (deadline fnMs : ℕ)
    (fnResult : Except String V) (hlate : stepTimeout deadline ≤ fnMs) :
    withStep label (stepTimeout deadline) fnMs fnResult =
      ⟨deadline + STEP_MARGIN,
       Except.error (stepTimeoutMessage label (deadline + STEP_MARGIN))⟩ := by
  unfold withStep
  rw [if_neg (by omega)]
  rfl

theorem withStep_timeout_witness :
    stepTimeout 540000 ≤ 999999 ∧
    withStep "generate(OLLAMA:llama3.2)" (stepTimeout 540000) 999999
        (Except.ok "a late answer") =
      ⟨545000,
       Except.error "Step \"generate(OLLAMA:llama3.2)\" timed out after 545000ms"⟩ :=
  ⟨by decide,
   (withStep_timeout "generate(OLLAMA:llama3.2)" 540000 999999
     (Except.ok "a late answer") (by decide)).trans rfl⟩

/-! ## Unsupported provider (C6) -/

/-- C6: for every provider key whose uppercasing is not a key of
`PROVIDERS`, the Generation Router fails with the `Unsupported provider`
error and makes zero transport calls, and the `/ask` boundary guard
answers `400 Unsupported provider` for the same request. -/
theorem unsupportedProvider_no_transport (p : String) (transport : String → String)
    (envProvider : Option String)
    (hunknown : jsToUpper p ∉ PROVIDERS.map Prod.fst) :
    generateLLM p transport = (.error ("Unsupported provider: " ++ jsToUpper p), 0) ∧
    askProviderGuard (some p) envProvider =
      .error (400, "Unsupported provider: " ++ jsToUpper p) := by
  have h1 : jsToUpper p ≠ "OLLAMA" := fun h => hunknown (by simp [PROVIDERS, h])
  have h2 : jsToUpper p ≠ "GROQ" := fun h => hunknown (by simp [PROVIDERS, h])
  have h3 : jsToUpper p ≠ "OPENAI" := fun h => hunknown (by simp [PROVIDERS, h])
  have h4 : jsToUpper p ≠ "MISTRAL" := fun h => hunknown (by simp [PROVIDERS, h])
  have hb1 : (jsToUpper p == "OLLAMA") = false := beq_eq_false_iff_ne.2 h1
  have hb2 : (jsToUpper p == "GROQ") = false := beq_eq_false_iff_ne.2 h2
  have hb3 : (jsToUpper p == "OPENAI") = false := beq_eq_false_iff_ne.2 h3
  have hb4 : (jsToUpper p == "MISTRAL") = false := beq_eq_false_iff_ne.2 h4
  constructor
  · simp [generateLLM, h1, h2, h3, h4]
  · simp [askProviderGuard, PROVIDERS, List.lookup, hb1, hb2, hb3, hb4]

/-! ## Chunker (C4) -/

theorem splitWsAux_ne_nil :
    ∀ (cs : List Char) (skipping : Bool) (acc : List Char),
      splitWsAux cs skipping acc ≠ [] := by
  intro cs
  induction cs with
  | nil =>
    intro skipping acc
    cases skipping <;> simp [splitWsAux]
  | cons c cs ih =>
    intro skipping acc
    cases skipping <;> simp only [splitWsAux] <;> split
    · simp
    · exact ih false (c :: acc)
    · exact ih true []
    · exact ih false [c]

theorem splitWs_ne_nil (cs : List Char) : splitWs cs ≠ [] :=
  splitWsAux_ne_nil cs false []

theorem mem_dropWhile_of_not (p : Char → Bool) (l : List Char) (c : Char)
    (hc : c ∈ l) (hnp : p c = false) : c ∈ l.dropWhile p := by
  have hsplit := List.takeWhile_append_dropWhile p l
  rcases List.mem_append.1 (by rw [hsplit]; exact hc) with h | h
  · exact absurd (List.mem_takeWhile_imp h) (by simp [hnp])
  · exact h

/-- A character run with visible content does not trim to nothing. -/
theorem jsTrim_ne_nil (cs : List Char) (c : Char) (hc : c ∈ cs)
    (hw : isWs c = false) : jsTrim cs ≠ [] := by
  intro h
  have h1 : (cs.dropWhile isWs).reverse.dropWhile isWs = [] := by
    simpa [jsTrim] using congrArg List.reverse h
  have h2 : ∀ x ∈ (cs.dropWhile isWs).reverse, isWs x = true :=
    List.dropWhile_eq_nil_iff.1 h1
  have h3 : c ∈ cs.dropWhile isWs := mem_dropWhile_of_not isWs cs c hc hw
  have := h2 c (List.mem_reverse.2 h3)
  rw [hw] at this
  exact Bool.false_ne_true this

theorem mem_joinSp (c : Char) :
    ∀ (ws : List (List Char)) (w : List Char), w ∈ ws → c ∈ w → c ∈ joinSp ws := by
  intro ws
  induction ws with
  | nil => intro w h; exact absurd h (List.not_mem_nil w)
  | cons w1 rest ih =>
    intro w hw hc
    cases rest with
    | nil =>
      rcases List.mem_cons.1 hw with h | h
      · simpa [joinSp, ← h] using hc
      · exact absurd h (List.not_mem_nil w)
    | cons w2 t =>
      rcases List.mem_cons.1 hw with h | h
      · exact List.mem_append.2 (Or.inl (h ▸ hc))
      · exact List.mem_append.2 (Or.inr (List.mem_cons.2 (Or.inr (ih w h hc))))

/-- One step of ceiling division: for positive `t`,
`⌈(t + s - 1) / s⌉`-style division peels off one window. -/
theorem ceil_div_step (t s : ℕ) (hs : 0 < s) (ht : 0 < t) :
    (t + s - 1) / s = (t - s + s - 1) / s + 1 := by
  have h1 : ∀ x : ℕ, (x + s) / s = x / s + 1 := fun x => Nat.add_div_right x hs
  rcases le_or_lt t s with h | h
  · have e1 : t + s - 1 = (t - 1) + s := by omega
    have e2 : t - s = 0 := by omega
    rw [e1, h1, e2, Nat.div_eq_of_lt (by omega), Nat.div_eq_of_lt (by omega)]
  · have e1 : t + s - 1 = (t - 1) + s := by omega
    have e2 : t - s + s - 1 = t - 1 := by omega
    rw [e1, h1, e2]

/-- The window starting at any in-range index joins to a slice with
visible content, provided every token has visible content. -/
theorem window_has_content (words : List (List Char)) (m i : ℕ)
    (hm : 0 < m) (hi : i < words.length)
    (hcontent : ∀ w ∈ words, ∃ c ∈ w, isWs c = false) :
    jsTrim (joinSp ((words.drop i).take m)) ≠ [] := by
  have hne : words.drop i ≠ [] := by
    intro h
    rw [List.drop_eq_nil_iff] at h
    omega
  obtain ⟨w0, rest, hdrop⟩ := List.exists_cons_of_ne_nil hne
  have hw0 : w0 ∈ words := by
    have : w0 ∈ words.drop i := by rw [hdrop]; exact List.mem_cons_self w0 rest
    exact (List.drop_sublist i words).subset this
  obtain ⟨c, hcw, hcns⟩ := hcontent w0 hw0
  obtain ⟨k, rfl⟩ := Nat.exists_eq_succ_of_ne_zero (Nat.pos_iff_ne_zero.1 hm)
  have hwin : w0 ∈ (words.drop i).take (k + 1) := by
    rw [hdrop, List.take_succ_cons]
    exact List.mem_cons_self w0 _
  exact jsTrim_ne_nil _ c (mem_joinSp c _ w0 hwin hcw) hcns

/-- The chunk count produced by the loop of `chunkText`: one chunk per
window, `⌈(L - i) / step⌉` of them, whenever every word has visible
content and the fuel is sufficient. -/
theorem chunkAux_length (words : List (List Char)) (m o : ℕ) (hov : o < m)
    (hcontent : ∀ w ∈ words, ∃ c ∈ w, isWs c = false) :
    ∀ (fuel i : ℕ), words.length ≤ fuel + i →
      (chunkAux words m o fuel i).length =
        (words.length - i + (m - o) - 1) / (m - o) := by
  have hs : 0 < m - o := by omega
  have hmax : max 1 (m - o) = m - o := max_eq_right (by omega)
  intro fuel
  induction fuel with
  | zero =>
    intro i hfi
    have h0 : words.length - i = 0 := by omega
    have hdiv : (words.length - i + (m - o) - 1) / (m - o) = 0 := by
      rw [h0]
      exact Nat.div_eq_of_lt (by omega)
    rw [hdiv]
    rfl
  | succ fuel ih =>
    intro i hfi
    by_cases hi : i < words.length
    · have hm0 : 0 < m := by omega
      have hslice := window_has_content words m i hm0 hi hcontent
      have hrec := ih (i + (m - o)) (by omega)
      have ht : 0 < words.length - i := by omega
      have harith : words.length - (i + (m - o)) = words.length - i - (m - o) := by omega
      simp only [chunkAux, if_pos hi, hmax, if_neg hslice, List.length_cons, hrec, harith]
      exact (ceil_div_step (words.length - i) (m - o) hs ht).symm
    · have h0 : words.length - i = 0 := by omega
      have hdiv : (words.length - i + (m - o) - 1) / (m - o) = 0 := by
        rw [h0]
        exact Nat.div_eq_of_lt (by omega)
      simp [chunkAux, hi, hdiv]

/-- C4 counterexample: on `T = "a b"` with `maxUnits = 2`,
`overlapUnits = 1`, the chunker returns 2 chunks (`["a b", "b"]`) while
the claim's formula `ceil((|words| - overlap) / (max - overlap))` gives
1; and the non-empty text `" "` yields 0 chunks, not at least 1. -/
theorem chunkText_count_counterexample :
    (chunkText "a b" 2 1 = ["a b", "b"] ∧
     (chunkText "a b" 2 1).length = 2 ∧
     claimedChunkCount "a b" 2 1 = 1) ∧
    (" " ≠ "" ∧ chunkText " " 2 1 = []) :=
  ⟨⟨rfl, rfl, rfl⟩, ⟨by decide, rfl⟩⟩

/-- C4 amended: for `overlapUnits < maxUnits`, when every
whitespace-split token of `T` contains a non-whitespace character
(in particular `T` is then non-empty and not all-whitespace),
`chunkText` returns exactly
`ceil(|words(T)| / (maxUnits - overlapUnits))` chunks — the window loop
runs until the window *start* passes the end of the word list, not until
the remaining words fit in one window — and at least 1 chunk. -/
theorem chunkText_count (text : String) (maxTokens overlapTokens : ℕ)
    (hov : overlapTokens < maxTokens)
    (hcontent : ∀ w ∈ splitWs text.data, ∃ c ∈ w, isWs c = false) :
    (chunkText text maxTokens overlapTokens).length =
      ((splitWs text.data).length + (maxTokens - overlapTokens) - 1) /
        (maxTokens - overlapTokens) ∧
    1 ≤ (chunkText text maxTokens overlapTokens).length := by
  have hlen : (chunkText text maxTokens overlapTokens).length =
      (chunkAux (splitWs text.data) maxTokens overlapTokens
        (splitWs text.data).length 0).length := by
    simp [chunkText]
  have hcount := chunkAux_length (splitWs text.data) maxTokens overlapTokens hov hcontent
    (splitWs text.data).length 0 (by omega)
  have hL : 1 ≤ (splitWs text.data).length :=
    List.length_pos.2 (splitWs_ne_nil text.data)
  constructor
  · rw [hlen, hcount]
    simp
  · rw [hlen, hcount]
    have hs : 0 < maxTokens - overlapTokens := by omega
    rw [Nat.le_div_iff_mul_le hs]
    omega

theorem chunkText_count_witness :
    (1 < 2 ∧
      (chunkText "alpha beta gamma" 2 1).length =
        ((splitWs "alpha beta gamma".data).length + (2 - 1) - 1) / (2 - 1) ∧
      1 ≤ (chunkText "alpha beta gamma" 2 1).length) ∧
    (chunkText "alpha beta gamma" 2 1).length = 3 :=
  ⟨⟨by decide, chunkText_count "alpha beta gamma" 2 1 (by decide) (by decide)⟩, rfl⟩

theorem unsupportedProvider_witness :
    jsToUpper "FOO" ∉ PROVIDERS.map Prod.fst ∧
    generateLLM "FOO" (fun _ => "a mocked transport response") =
      (.error ("Unsupported provider: " ++ jsToUpper "FOO"), 0) ∧
    askProviderGuard (some "FOO") none =
      .error (400, "Unsupported provider: " ++ jsToUpper "FOO") :=
  ⟨by decide,
   unsupportedProvider_no_transport "FOO" (fun _ => "a mocked transport response") none
     (by decide)⟩

/-! ## Search limits (C7) -/

/-- C7 counterexample: at `limit = -1 ≤ 0` the search does not return an
empty sequence — the store rejects the interpolated negative `LIMIT` and
the call raises an error. -/
theorem search_negative_limit_counterexample :
    searchDomain (fun _ _ => 0) ([] : List DomRow) (JsArg.arr []) (-1) =
      .error "LIMIT must not be negative" ∧
    searchOrg (fun _ _ => 0) ([] : List OrgRow) "org-1" (JsArg.arr []) (-1) =
      .error "LIMIT must not be negative" :=
  ⟨rfl, rfl⟩

/-- C7 amended: `searchOrg` and `searchDomain` called with `limit = 0`
return an empty sequence without error, and finding no matching records
likewise yields an empty sequence for any non-negative limit; but a
*negative* limit is rejected by the store (`LIMIT must not be
negative`), so the call errors rather than returning an empty
sequence. -/
theorem search_limit_behaviour (dist : String → String → ℚ) (tblO : List OrgRow)
    (tblD : List DomRow) (orgId : String) (emb : List JsVal) :
    searchOrg dist tblO orgId (JsArg.arr emb) 0 = .ok [] ∧
    searchDomain dist tblD (JsArg.arr emb) 0 = .ok [] ∧
    (∀ limit : ℤ, 0 ≤ limit → tblO.filter (fun r => r.org_id = orgId) = [] →
      searchOrg dist tblO orgId (JsArg.arr emb) limit = .ok []) ∧
    (∀ limit : ℤ, 0 ≤ limit →
      searchDomain dist ([] : List DomRow) (JsArg.arr emb) limit = .ok []) ∧
    (∀ limit : ℤ, limit < 0 →
      searchOrg dist tblO orgId (JsArg.arr emb) limit =
        .error "LIMIT must not be negative" ∧
      searchDomain dist tblD (JsArg.arr emb) limit =
        .error "LIMIT must not be negative") := by
  refine ⟨?_, ?_, ?_, ?_, ?_⟩
  · simp [searchOrg, toVectorLiteral, pgLimit, Bind.bind, Except.bind]
  · simp [searchDomain, toVectorLiteral, pgLimit, Bind.bind, Except.bind]
  · intro limit hnn hempty
    simp [searchOrg, toVectorLiteral, pgLimit, Bind.bind, Except.bind, hempty, sortStable, not_lt.2 hnn]
  · intro limit hnn
    simp [searchDomain, toVectorLiteral, pgLimit, Bind.bind, Except.bind, sortStable, not_lt.2 hnn]
  · intro limit hneg
    constructor
    · simp [searchOrg, toVectorLiteral, pgLimit, Bind.bind, Except.bind, hneg]
    · simp [searchDomain, toVectorLiteral, pgLimit, Bind.bind, Except.bind, hneg]

theorem search_limit_behaviour_witness :
    searchOrg (fun _ _ => 0) ([] : List OrgRow) "org-1" (JsArg.arr []) 0 = .ok [] ∧
    ((0 : ℤ) ≤ 3 ∧
      searchDomain (fun _ _ => 0) ([] : List DomRow) (JsArg.arr []) 3 = .ok []) :=
  ⟨(search_limit_behaviour (fun _ _ => 0) [] [] "org-1" []).1,
   by decide,
   (search_limit_behaviour (fun _ _ => 0) [] [] "org-1" []).2.2.2.1 3 (by decide)⟩

/-! ## Org-tier upserts (C9) -/

/-- C9 counterexample: an upsert whose `metadata.org_id` is present but
*empty* succeeds and persists an org-tier record whose `org_id` is the
empty string, so not every persisted org-tier record carries a non-empty
`org_id`. -/
theorem insertChunkOrg_empty_orgid_counterexample :
    insertChunkOrg [] "c1" "body" ⟨some ""⟩ (JsArg.arr []) =
      .ok [⟨"c1", "", "body", ⟨some ""⟩, "[]"⟩] ∧
    ¬ orgRecordsWellScoped [⟨"c1", "", "body", ⟨some ""⟩, "[]"⟩] :=
  ⟨rfl, fun h => h ⟨"c1", "", "body", ⟨some ""⟩, "[]"⟩ (by simp) rfl⟩

/-- C9 amended: an org-tier upsert whose metadata lacks `org_id` fails —
with the store's `NOT NULL` violation on the `org_id` column (there is
no dedicated `MissingOrgId` check in the adapter); when
`metadata.org_id` is present — including the empty string — it is
written as the record's scoping key, so the upserted record carries that
(non-NULL, but possibly empty) `org_id`, and the store stays well-scoped
whenever every upsert supplies a non-empty `org_id`. -/
theorem insertChunkOrg_org_id (tbl : List OrgRow) (id text : String) (metadata : Meta)
    (embedding : List JsVal) :
    (metadata.org_id = none →
      insertChunkOrg tbl id text metadata (JsArg.arr embedding) =
        .error "null value in column \"org_id\" violates not-null constraint") ∧
    (∀ oid, metadata.org_id = some oid →
      ∃ tbl', insertChunkOrg tbl id text metadata (JsArg.arr embedding) = .ok tbl' ∧
        (∃ r ∈ tbl', r.id = id ∧ r.org_id = oid) ∧
        (oid ≠ "" → orgRecordsWellScoped tbl → orgRecordsWellScoped tbl')) := by
  constructor
  · intro hnone
    simp [insertChunkOrg, toVectorLiteral, Bind.bind, Except.bind, hnone]
  · intro oid hsome
    by_cases hconf : tbl.any (fun r => r.id = id)
    · refine ⟨tbl.map (fun r =>
        if r.id = id then
          { id := r.id, org_id := oid, text := text, metadata := metadata,
            embedding := "[" ++ String.intercalate ","
              (embedding.map (fun v => decimalString (coerceNum v))) ++ "]" }
        else r), ?_, ?_, ?_⟩
      · simp [insertChunkOrg, toVectorLiteral, Bind.bind, Except.bind, hsome, hconf]
      · obtain ⟨r0, hr0, hr0id⟩ := List.any_eq_true.1 hconf
        have hr0id' : r0.id = id := of_decide_eq_true hr0id
        refine ⟨_, List.mem_map_of_mem _ hr0, ?_⟩
        simp [hr0id']
      · intro hne hws r hr
        rcases List.mem_map.1 hr with ⟨r0, hr0, hr0eq⟩
        by_cases hid : r0.id = id
        · rw [← hr0eq]
          simp [hid, hne]
        · rw [← hr0eq]
          simp [hid]
          exact hws r0 hr0
    · refine ⟨tbl ++ [⟨id, oid, text, metadata,
        "[" ++ String.intercalate ","
          (embedding.map (fun v => decimalString (coerceNum v))) ++ "]"⟩], ?_, ?_, ?_⟩
      · simp [insertChunkOrg, toVectorLiteral, Bind.bind, Except.bind, hsome, hconf]
      · exact ⟨_, List.mem_append.2 (Or.inr (List.mem_cons_self _ _)), rfl, rfl⟩
      · intro hne hws r hr
        rcases List.mem_append.1 hr with h | h
        · exact hws r h
        · rcases List.mem_cons.1 h with h | h
          · rw [h]
            exact hne
          · exact absurd h (List.not_mem_nil r)

/-! ## Bounded-concurrency executor: invariant lemmas -/

theorem fillAux_inv {E V : Type} (f : ℕ → Except E V) (n : ℕ) (limit : ℤ) :
    ∀ (fuel : ℕ) (s : MLState V), MLInv f n s → MLInv f n (fillAux n limit fuel s) := by
  intro fuel
  induction fuel with
  | zero => intro s h; exact h
  | succ fuel ih =>
    intro s h
    rw [fillAux]
    split
    · next hcond =>
      obtain ⟨hlen, hidx, hbound, hdone⟩ := h
      refine ih _ ⟨hlen, ?_, ?_, ?_⟩
      · show s.nextIdx + 1 ≤ n
        omega
      · show ∀ j ∈ s.inFlight ++ [s.nextIdx], j < s.nextIdx + 1
        intro j hj
        rcases List.mem_append.1 hj with hj | hj
        · exact Nat.lt_succ_of_lt (hbound j hj)
        · simp only [List.mem_singleton] at hj
          omega
      · show ∀ j, j < s.nextIdx + 1 → j ∉ s.inFlight ++ [s.nextIdx] →
          ∃ v, f j = Except.ok v ∧ s.out[j]? = some (some v)
        intro j hjlt hnotin
        have hne : j ≠ s.nextIdx := fun heq => hnotin (by simp [heq])
        have hnotin' : j ∉ s.inFlight := fun hmem =>
          hnotin (List.mem_append.2 (Or.inl hmem))
        exact hdone j (by omega) hnotin'
    · next => exact h

theorem fill_inv {E V : Type} (f : ℕ → Except E V) (n : ℕ) (limit : ℤ)
    (s : MLState V) (h : MLInv f n s) : MLInv f n (fill n limit s) :=
  fillAux_inv f n limit _ s h

theorem step_inv {E V : Type} (f : ℕ → Except E V) (n : ℕ) (s : MLState V)
    (j : ℕ) (v : V) (hj : j ∈ s.inFlight) (hfj : f j = Except.ok v)
    (h : MLInv f n s) :
    MLInv f n
      { s with inFlight := s.inFlight.erase j, out := s.out.set j (some v) } := by
  obtain ⟨hlen, hidx, hbound, hdone⟩ := h
  have hjn : j < n := lt_of_lt_of_le (hbound j hj) hidx
  refine ⟨by simp [hlen], hidx, ?_, ?_⟩
  · intro j' hj'
    exact hbound j' (List.mem_of_mem_erase hj')
  · intro j' hj'lt hj'notin
    by_cases heq : j' = j
    · subst heq
      exact ⟨v, hfj, by simp [List.getElem?_set, hlen, hjn]⟩
    · have hne : j ≠ j' := Ne.symm heq
      have hmem : j' ∉ s.inFlight := fun hmem =>
        hj'notin ((List.mem_erase_of_ne heq).2 hmem)
      obtain ⟨w, hw, hwout⟩ := hdone j' hj'lt hmem
      refine ⟨w, hw, ?_⟩
      simpa [List.getElem?_set, hne] using hwout

theorem resolve_out {E V : Type} [Inhabited V] (f : ℕ → Except E V) (n : ℕ)
    (s : MLState V) (h : MLInv f n s) (hn : n ≤ s.nextIdx) (hfl : s.inFlight = []) :
    s.out.map (fun o => o.getD default) = (List.range n).map (fun i => okVal (f i)) ∧
    ∀ i, i < n → ∃ v, f i = Except.ok v := by
  obtain ⟨hlen, hidx, hbound, hdone⟩ := h
  have hall : ∀ j, j < n → ∃ v, f j = Except.ok v ∧ s.out[j]? = some (some v) :=
    fun j hjn => hdone j (by omega) (by simp [hfl])
  constructor
  · apply List.ext_getElem?
    intro j
    by_cases hjn : j < n
    · obtain ⟨v, hv, hout⟩ := hall j hjn
      rw [List.getElem?_map, List.getElem?_map, List.getElem?_range hjn, hout]
      simp [okVal, hv]
    · rw [List.getElem?_map, List.getElem?_map]
      have h1 : s.out[j]? = none := List.getElem?_eq_none (by omega)
      have h2 : (List.range n)[j]? = none :=
        List.getElem?_eq_none (by simpa using Nat.le_of_not_lt hjn)
      rw [h1, h2]
      rfl
  · intro i hi
    obtain ⟨v, hv, _⟩ := hall i hi
    exact ⟨v, hv⟩

theorem runAux_ok {E V : Type} [Inhabited V] (f : ℕ → Except E V) (n : ℕ) (limit : ℤ) :
    ∀ (sched : List ℕ) (s : MLState V), MLInv f n s →
      ∀ out, (runAux f n limit sched s).1 = MLOutcome.ok out →
        out = (List.range n).map (fun i => okVal (f i)) ∧
        ∀ i, i < n → ∃ v, f i = Except.ok v := by
  intro sched
  induction sched with
  | nil =>
    intro s hinv out hout
    rw [runAux] at hout
    split at hout
    · next hres =>
      obtain ⟨h1, h2⟩ := resolve_out f n s hinv hres.1 hres.2
      simp only [Prod.fst, MLOutcome.ok.injEq] at hout
      exact ⟨hout ▸ h1.symm ▸ rfl, h2⟩
    · next => simp at hout
  | cons j rest ih =>
    intro s hinv out hout
    rw [runAux] at hout
    split at hout
    · next hres =>
      obtain ⟨h1, h2⟩ := resolve_out f n s hinv hres.1 hres.2
      simp only [Prod.fst, MLOutcome.ok.injEq] at hout
      exact ⟨hout ▸ h1.symm ▸ rfl, h2⟩
    · next =>
      split at hout
      · next hjmem =>
        cases hfj : f j with
        | error e => rw [hfj] at hout; simp at hout
        | ok v =>
          rw [hfj] at hout
          exact ih _ (fill_inv f n limit _ (step_inv f n s j v hjmem hfj hinv)) out hout
      · next => simp at hout

theorem runAux_err {E V : Type} [Inhabited V] (f : ℕ → Except E V) (n : ℕ) (limit : ℤ) :
    ∀ (sched : List ℕ) (s : MLState V), MLInv f n s →
      ∀ e, (runAux f n limit sched s).1 = MLOutcome.err e →
        ∃ j, j < n ∧ f j = Except.error e := by
  intro sched
  induction sched with
  | nil =>
    intro s hinv e hout
    rw [runAux] at hout
    split at hout <;> simp at hout
  | cons j rest ih =>
    intro s hinv e hout
    rw [runAux] at hout
    split at hout
    · next => simp at hout
    · next =>
      split at hout
      · next hjmem =>
        cases hfj : f j with
        | error e' =>
          rw [hfj] at hout
          simp only [Prod.fst, MLOutcome.err.injEq] at hout
          exact ⟨j, lt_of_lt_of_le (hinv.2.2.1 j hjmem) hinv.2.1, hout ▸ hfj⟩
        | ok v =>
          rw [hfj] at hout
          exact ih _ (fill_inv f n limit _ (step_inv f n s j v hjmem hfj hinv)) e hout
      · next => simp at hout

theorem fillAux_peak {V : Type} (n : ℕ) (limit : ℤ) :
    ∀ (fuel : ℕ) (s : MLState V), MLPeakInv limit s →
      MLPeakInv limit (fillAux n limit fuel s) := by
  intro fuel
  induction fuel with
  | zero => intro s h; exact h
  | succ fuel ih =>
    intro s h
    rw [fillAux]
    split
    · next hcond =>
      obtain ⟨hfl, hpk⟩ := h
      refine ih _ ⟨?_, ?_⟩
      · simp only [List.length_append, List.length_cons, List.length_nil]
        push_cast
        omega
      · have h1 : ((s.inFlight.length + 1 : ℕ) : ℤ) ≤ limit := by push_cast; omega
        show ((max s.peak (s.inFlight.length + 1) : ℕ) : ℤ) ≤ limit
        rcases Nat.le_total s.peak (s.inFlight.length + 1) with hle | hle
        · rwa [max_eq_right hle]
        · rwa [max_eq_left hle]
    · next => exact h

theorem step_peak {V : Type} (limit : ℤ) (s : MLState V) (j : ℕ) (v : V)
    (h : MLPeakInv limit s) :
    MLPeakInv limit
      { s with inFlight := s.inFlight.erase j, out := s.out.set j (some v) } := by
  refine ⟨?_, h.2⟩
  have h1 := (List.erase_sublist j s.inFlight).length_le
  have h2 := h.1
  show ((s.inFlight.erase j).length : ℤ) ≤ limit
  omega

theorem runAux_peak {E V : Type} [Inhabited V] (f : ℕ → Except E V) (n : ℕ)
    (limit : ℤ) :
    ∀ (sched : List ℕ) (s : MLState V), MLPeakInv limit s →
      ((runAux f n limit sched s).2 : ℤ) ≤ limit := by
  intro sched
  induction sched with
  | nil =>
    intro s h
    rw [runAux]
    split <;> exact h.2
  | cons j rest ih =>
    intro s h
    rw [runAux]
    split
    · next => exact h.2
    · next =>
      split
      · next =>
        cases hfj : f j with
        | error e => exact h.2
        | ok v => exact ih _ (fillAux_peak n limit _ _ (step_peak limit s j v h))
      · next => exact h.2

/-! ## Executor theorems (C2, C10, C8) -/

/-- C2: for every worker, every `limit ≥ 1` and every completion
schedule under which the `mapLimit` promise settles, if all workers
succeed the promise resolves with each worker's result placed at its
item's original index (output order = input order, whatever the
completion order), and if any single worker invocation fails the whole
operation fails. -/
theorem mapLimit_order_and_failure {E V : Type} [Inhabited V] (f : ℕ → Except E V)
    (n : ℕ) (limit : ℤ) (sched : List ℕ) (hlim : 1 ≤ limit)
    (hsettle : (mapLimitRun f n limit sched).1 ≠ MLOutcome.pending) :
    ((∀ i, i < n → ∃ v, f i = Except.ok v) →
      (mapLimitRun f n limit sched).1 =
        MLOutcome.ok ((List.range n).map (fun i => okVal (f i)))) ∧
    ((∃ i, i < n ∧ ∃ e, f i = Except.error e) →
      ∃ e, (mapLimitRun f n limit sched).1 = MLOutcome.err e) := by
  have hinv0 : MLInv f n (⟨0, [], List.replicate n none, 0⟩ : MLState V) :=
    ⟨by simp, Nat.zero_le n,
     fun j hj => absurd hj (List.not_mem_nil j),
     fun j hj => absurd hj (Nat.not_lt_zero j)⟩
  have hinv : MLInv f n (fill n limit (⟨0, [], List.replicate n none, 0⟩ : MLState V)) :=
    fill_inv f n limit _ hinv0
  constructor
  · intro hall
    cases hres : (mapLimitRun f n limit sched).1 with
    | ok out =>
      obtain ⟨ho, _⟩ := runAux_ok f n limit sched _ hinv out hres
      rw [ho]
    | err e =>
      obtain ⟨j, hjn, hfj⟩ := runAux_err f n limit sched _ hinv e hres
      obtain ⟨v, hv⟩ := hall j hjn
      rw [hfj] at hv
      exact absurd hv (by simp)
    | pending => exact absurd hres hsettle
  · rintro ⟨i, hi, e, hie⟩
    cases hres : (mapLimitRun f n limit sched).1 with
    | ok out =>
      obtain ⟨_, hall⟩ := runAux_ok f n limit sched _ hinv out hres
      obtain ⟨v, hv⟩ := hall i hi
      rw [hie] at hv
      exact absurd hv (by simp)
    | err e' => exact ⟨e', rfl⟩
    | pending => exact absurd hres hsettle

theorem mapLimit_order_witness :
    (1 : ℤ) ≤ 2 ∧ (mapLimitRun demoWorkerC2 3 2 [1, 0, 2]).1 ≠ MLOutcome.pending ∧
    (mapLimitRun demoWorkerC2 3 2 [1, 0, 2]).1 =
      MLOutcome.ok ((List.range 3).map (fun i => okVal (demoWorkerC2 i))) :=
  ⟨by decide, by decide,
   (mapLimit_order_and_failure demoWorkerC2 3 2 [1, 0, 2] (by decide) (by decide)).1
     (fun i _ => ⟨10 * i, rfl⟩)⟩

/-- C10: for every worker, input size, schedule and `limit ≥ 1`, at no
point during a `mapLimit` run are more than `limit` worker invocations
simultaneously in flight: the observed peak never exceeds `limit`. -/
theorem mapLimit_concurrency_bound {E V : Type} [Inhabited V] (f : ℕ → Except E V)
    (n : ℕ) (limit : ℤ) (sched : List ℕ) (hlim : 1 ≤ limit) :
    ((mapLimitRun f n limit sched).2 : ℤ) ≤ limit := by
  have h0 : MLPeakInv limit (⟨0, [], List.replicate n none, 0⟩ : MLState V) :=
    ⟨by simp; omega, by simp; omega⟩
  exact runAux_peak f n limit sched _ (fillAux_peak n limit _ _ h0)

theorem mapLimit_concurrency_witness :
    (1 : ℤ) ≤ 2 ∧ ((mapLimitRun demoWorkerC10 5 2 [0, 1, 2, 3, 4]).2 : ℤ) ≤ 2 ∧
    (mapLimitRun demoWorkerC10 5 2 [0, 1, 2, 3, 4]).2 = 2 :=
  ⟨by decide,
   mapLimit_concurrency_bound demoWorkerC10 5 2 [0, 1, 2, 3, 4] (by decide), rfl⟩

theorem fillAux_nonpos {V : Type} (n : ℕ) (limit : ℤ) (hlim : limit ≤ 0) :
    ∀ (fuel : ℕ) (s : MLState V), fillAux n limit fuel s = s := by
  intro fuel s
  cases fuel with
  | zero => rfl
  | succ fuel =>
    rw [fillAux, if_neg]
    rintro ⟨h1, _⟩
    have : (0 : ℤ) ≤ (s.inFlight.length : ℤ) := Int.natCast_nonneg _
    omega

/-- C8 counterexample: `mapLimit` with `limit = 0` on a one-element item
list does not fail — under every completion schedule the returned
promise neither resolves nor rejects, so the call waits forever. -/
theorem mapLimit_zero_limit_counterexample : neverSettles demoWorkerC8 1 0 := by
  intro sched
  cases sched <;> rfl

/-- C8 amended: `mapLimit` with `limit < 1` performs no validation and
does not fail: with a non-empty items list no worker is ever started and
the promise never settles (it waits forever, under every completion
schedule); with an empty items list it resolves normally with the empty
output. -/
theorem mapLimit_nonpositive_limit {E V : Type} [Inhabited V] (f : ℕ → Except E V)
    (n : ℕ) (limit : ℤ) (hlim : limit ≤ 0) :
    (0 < n → neverSettles f n limit) ∧
    (n = 0 → ∀ sched : List ℕ,
      (mapLimitRun f n limit sched).1 = MLOutcome.ok []) := by
  constructor
  · intro hn sched
    show (mapLimitRun f n limit sched).1 = MLOutcome.pending
    unfold mapLimitRun fill
    rw [fillAux_nonpos n limit hlim]
    cases sched with
    | nil =>
      rw [runAux, if_neg]
      intro hcontra
      have h1 : n ≤ 0 := hcontra.1
      omega
    | cons j rest =>
      rw [runAux, if_neg, if_neg (List.not_mem_nil j)]
      intro hcontra
      have h1 : n ≤ 0 := hcontra.1
      omega
  · intro hn sched
    subst hn
    unfold mapLimitRun fill
    rw [fillAux_nonpos 0 limit hlim]
    cases sched <;> rfl

theorem mapLimit_nonpositive_limit_witness :
    (0 : ℤ) ≤ 0 ∧ (mapLimitRun demoWorkerC8 1 0 [7]).1 = MLOutcome.pending :=
  ⟨by decide,
   (mapLimit_nonpositive_limit demoWorkerC8 1 0 (by decide)).1 (by decide) [7]⟩

theorem insertChunkOrg_org_id_witness :
    (Meta.mk (some "hospital-x")).org_id = some "hospital-x" ∧
    (∃ tbl', insertChunkOrg [] "c1" "chunk body" ⟨some "hospital-x"⟩ (JsArg.arr []) =
        .ok tbl' ∧
      (∃ r ∈ tbl', r.id = "c1" ∧ r.org_id = "hospital-x") ∧
      ("hospital-x" ≠ "" → orgRecordsWellScoped [] → orgRecordsWellScoped tbl')) :=
  ⟨rfl,
   (insertChunkOrg_org_id [] "c1" "chunk body" ⟨some "hospital-x"⟩ []).2
     "hospital-x" rfl⟩

end Knowsio
